import Mathlib

/-!
Verification development for the vendor-management-system repository.

The repository stores its core logic in Django model declarations:
the nested-set vendor hierarchy (src/backend/vendors/models.py), the
document verification schema (src/backend/documents/models.py) and the
driver records (src/backend/drivers/models.py).  The pure query methods
of those models are embedded directly; the hierarchy tree invariant and
the verification workflow transition function, which the repository
declares only as schema plus a natural-language design, are modelled
from the specification and marked as such in their doc comments.
-/

namespace VMS

/-- Row data of a Vendor as far as the hierarchy queries read it:
primary key and the Nested Set Model fields lft, rght, level
(src/backend/vendors/models.py, fields lft, rght, level). -/
structure VInfo where
  id : Nat
  lft : Nat
  rght : Nat
  level : Nat
deriving DecidableEq

/-- Embedding of Vendor.is_ancestor_of (src/backend/vendors/models.py):
self.lft < other.lft and self.rght > other.rght. -/
def is_ancestor_of (a b : VInfo) : Bool :=
  decide (a.lft < b.lft) && decide (a.rght > b.rght)

/-- Embedding of Vendor.is_descendant_of (src/backend/vendors/models.py):
self.lft > other.lft and self.rght < other.rght. -/
def is_descendant_of (a b : VInfo) : Bool :=
  decide (a.lft > b.lft) && decide (a.rght < b.rght)

/-- A stored Vendor row: the hierarchy fields together with the
parent foreign key (src/backend/vendors/models.py, field parent). -/
structure VRow where
  parentId : Option Nat
  inf : VInfo
deriving DecidableEq

/-- Comparison used by order_by on lft. -/
def lftLe (a b : VRow) : Prop := a.inf.lft ≤ b.inf.lft

instance : DecidableRel lftLe := fun a b => Nat.decLe a.inf.lft b.inf.lft

instance : IsTotal VRow lftLe := ⟨fun a b => Nat.le_total a.inf.lft b.inf.lft⟩

instance : IsTrans VRow lftLe := ⟨fun _ _ _ h1 h2 => Nat.le_trans h1 h2⟩

/-- Django order_by on the lft column, embedded as a sort. -/
def sortByLft (l : List VRow) : List VRow := l.insertionSort lftLe

/-- Embedding of Vendor.get_ancestors:
filter(lft__lt=self.lft, rght__gt=self.rght).order_by(lft). -/
def get_ancestors (store : List VRow) (i : VInfo) : List VRow :=
  sortByLft (store.filter (fun r => decide (r.inf.lft < i.lft ∧ r.inf.rght > i.rght)))

/-- Embedding of Vendor.get_descendants:
filter(lft__gt=self.lft, rght__lt=self.rght).order_by(lft). -/
def get_descendants (store : List VRow) (i : VInfo) : List VRow :=
  sortByLft (store.filter (fun r => decide (r.inf.lft > i.lft ∧ r.inf.rght < i.rght)))

/-- Embedding of Vendor.get_children:
filter(parent=self).order_by(lft) — selection is by the parent
foreign key, not by interval comparison. -/
def get_children (store : List VRow) (i : VInfo) : List VRow :=
  sortByLft (store.filter (fun r => decide (r.parentId = some i.id)))

/-- The set the specification says getChildren equals: interval
containment combined with level p.level + 1.  Written from the spec
for the refinement comparison of claim C4. -/
def childrenByInterval (store : List VRow) (i : VInfo) : List VRow :=
  sortByLft (store.filter
    (fun r => decide (i.lft < r.inf.lft ∧ r.inf.rght < i.rght ∧ r.inf.level = i.level + 1)))

/-- Modelled from the spec: the vendor hierarchy as a finite tree.
The repository only declares the nested-set columns; the tree shape
itself (section 3 of the spec) is represented as a rose tree whose
nodes carry the stored hierarchy fields. -/
inductive VTree where
  | node (inf : VInfo) (children : List VTree)

/-- Hierarchy fields of the root of a subtree. -/
def VTree.inf : VTree → VInfo
  | .node i _ => i

/-- Direct children of the root of a subtree. -/
def VTree.children : VTree → List VTree
  | .node _ cs => cs

mutual

/-- Number of nodes in a tree. -/
def sizeT : VTree → Nat
  | .node _ cs => 1 + sizeF cs

/-- Number of nodes in a forest. -/
def sizeF : List VTree → Nat
  | [] => 0
  | c :: cs => sizeT c + sizeF cs

end

mutual

/-- All subtrees of a tree, the tree itself included. -/
def subtreesT : VTree → List VTree
  | .node i cs => .node i cs :: subtreesF cs

/-- All subtrees of the members of a forest. -/
def subtreesF : List VTree → List VTree
  | [] => []
  | c :: cs => subtreesT c ++ subtreesF cs

end

mutual

/-- The stored rows generated by a tree: each node becomes one row
whose parentId is the id of its structural parent. -/
def rowsT (pid : Option Nat) : VTree → List VRow
  | .node i cs => ⟨pid, i⟩ :: rowsF i.id cs

/-- Rows of a forest whose members all have the parent pid. -/
def rowsF (pid : Nat) : List VTree → List VRow
  | [] => []
  | c :: cs => rowsT (some pid) c ++ rowsF pid cs

end

/-- The row table of a whole tree; the root row has no parent. -/
def storeOf (t : VTree) : List VRow := rowsT none t

/-- One parent-pointer step: c is a direct child of p. -/
def ChildRel (p c : VTree) : Prop := c ∈ p.children

/-- Modelled from the spec: the relation computed by a brute-force walk
up the parent-pointer chain — a is an ancestor of b exactly when
repeatedly following parent pointers from b reaches a, i.e. the
transitive closure of the direct-child relation. -/
def Desc (a b : VTree) : Prop := Relation.TransGen ChildRel a b

/-- Modelled from the spec: the nested-interval invariant of section 3,
stated recursively over the tree.  For every node n: n.left < n.right;
(n.right - n.left - 1) / 2 equals the number of descendants (stated
multiplicatively); every direct child c satisfies n.left < c.left and
c.right < n.right and c.level = n.level + 1; siblings are disjoint and
ordered left to right. -/
inductive Valid : VTree → Prop where
  | node (i : VInfo) (cs : List VTree)
      (hlr : i.lft < i.rght)
      (htight : i.rght = i.lft + 1 + 2 * sizeF cs)
      (hwithin : ∀ c ∈ cs, i.lft < c.inf.lft ∧ c.inf.rght < i.rght)
      (hlevel : ∀ c ∈ cs, c.inf.level = i.level + 1)
      (hsib : List.Pairwise (fun x y => x.inf.rght < y.inf.lft) cs)
      (hrec : ∀ c ∈ cs, Valid c) :
      Valid (.node i cs)

/-- Modelled from the spec: a full vendor tree — the recursive
nested-interval invariant, root left = 1, root level = 0, and globally
unique primary keys. -/
def ValidTree (t : VTree) : Prop :=
  Valid t ∧ t.inf.lft = 1 ∧ t.inf.level = 0 ∧
    ((subtreesT t).map (fun s => s.inf.id)).Nodup

/-- Embedding of VendorPermission (src/backend/vendors/models.py):
the fields read by the expiry check and the authority logic.
Timestamps are represented as integers. -/
structure VendorPermission where
  vendorId : Nat
  userId : Nat
  permissionId : Nat
  granted_by : Nat
  can_delegate : Bool
  is_temporary : Bool
  expires_at : Option Int
  is_active : Bool
deriving DecidableEq

/-- Embedding of VendorPermission.is_expired
(src/backend/vendors/models.py): if self.is_temporary and
self.expires_at: return timezone.now() > self.expires_at; return False.
A datetime value is always truthy in Python, so the second conjunct is
exactly a non-null test. -/
def is_expired (now : Int) (g : VendorPermission) : Bool :=
  match g.is_temporary, g.expires_at with
  | true, some e => decide (now > e)
  | _, _ => false

/-- Modelled from the spec: deleteSubtree on the stored rows.  The
repository declares the cascade only as foreign keys
(Vendor.parent and VendorPermission.vendor, both on_delete=CASCADE);
the spec says the operation deletes the node and all descendants and
cascades deletion of their PermissionGrants.  Descendants are the rows
whose intervals lie strictly inside the deleted node's interval, read
through the embedded Vendor.is_descendant_of. -/
def doomed (n : VInfo) (r : VRow) : Bool :=
  decide (r.inf.id = n.id) || is_descendant_of r.inf n

def deleteSubtree (vs : List VRow) (gs : List VendorPermission) (n : VInfo) :
    List VRow × List VendorPermission :=
  (vs.filter (fun r => !(doomed n r)),
   gs.filter (fun g => decide (g.vendorId ∉ (vs.filter (doomed n)).map (fun r => r.inf.id))))

/-- Document status values (src/backend/documents/models.py,
STATUS_CHOICES). -/
inductive DocStatus where
  | uploaded
  | under_review
  | verified
  | rejected
  | expired
  | archived
deriving DecidableEq

/-- Verification action values (src/backend/documents/models.py,
VERIFICATION_ACTION_CHOICES). -/
inductive VAction where
  | pending
  | approved
  | rejected
  | needs_correction
  | escalated
deriving DecidableEq

/-- Embedding of a DocumentVerification row
(src/backend/documents/models.py): verification level, action, the
verifier, and the optional correction deadline and escalation target. -/
structure DocumentVerification where
  verification_level : Nat
  action : VAction
  verified_by : Nat
  correction_deadline : Option Int
  escalated_to : Option Nat
deriving DecidableEq

/-- Workflow-relevant state of one Document
(src/backend/documents/models.py): status (default uploaded),
current_verification_level (default 0), plus its verification rows. -/
structure DocState where
  status : DocStatus
  current_verification_level : Nat
  decisions : List DocumentVerification
deriving DecidableEq

/-- Error outcomes of the verification workflow, from the error
taxonomy of the spec. -/
inductive WfError where
  | authorityDenied
  | verificationConflict
  | outOfOrder
  | invalidOperation
deriving DecidableEq

namespace Wf

/-- A freshly uploaded document: status uploaded and
current_verification_level 0, the model defaults in
src/backend/documents/models.py. -/
def initDoc : DocState := ⟨.uploaded, 0, []⟩

/-- The decision levels already recorded on a document. -/
def levelsOf (st : DocState) : List Nat :=
  st.decisions.map (fun d => d.verification_level)

/-- Modelled from the spec: the VerificationWorkflow transition
function apply of section 4.3, which the repository declares only as
schema.  Checks in order: the authority outcome (step 1, passed in as
a boolean), the exactly-once-per-level guard (step 2,
VerificationConflict), the strict ordering guard (step 3, OutOfOrder);
then the action cases of steps 4 to 7.  A needs_correction decision
requires a correction deadline and an escalated decision requires an
escalation target; the pending choice is not a workflow action. -/
def apply (N : Nat) (auth : Bool) (level : Nat) (action : VAction) (actor : Nat)
    (deadline : Option Int) (escTo : Option Nat) (st : DocState) :
    Except WfError DocState :=
  if !auth then .error .authorityDenied
  else if st.decisions.any (fun d => decide (d.verification_level = level)) then
    .error .verificationConflict
  else if decide (level ≠ st.current_verification_level + 1) then .error .outOfOrder
  else
    match action with
    | .approved =>
      if decide (level = N) then
        .ok ⟨.verified, N, st.decisions ++ [⟨level, .approved, actor, deadline, escTo⟩]⟩
      else
        .ok ⟨.under_review, level, st.decisions ++ [⟨level, .approved, actor, deadline, escTo⟩]⟩
    | .rejected =>
      .ok ⟨.rejected, st.current_verification_level,
        st.decisions ++ [⟨level, .rejected, actor, deadline, escTo⟩]⟩
    | .needs_correction =>
      match deadline with
      | none => .error .invalidOperation
      | some dl =>
        .ok ⟨.uploaded, st.current_verification_level,
          st.decisions ++ [⟨level, .needs_correction, actor, some dl, escTo⟩]⟩
    | .escalated =>
      match escTo with
      | none => .error .invalidOperation
      | some e =>
        .ok ⟨.under_review, st.current_verification_level,
          st.decisions ++ [⟨level, .escalated, actor, deadline, some e⟩]⟩
    | .pending => .error .invalidOperation

/-- Modelled from the spec: resubmission after a needs_correction
decision clears the corresponding decision row (the one at the flagged
level current_verification_level + 1) so that level can be retried;
it applies only to a document sitting in uploaded status. -/
def resubmit (st : DocState) : DocState :=
  if st.status = DocStatus.uploaded then
    ⟨.uploaded, st.current_verification_level,
      st.decisions.filter (fun d =>
        !(decide (d.verification_level = st.current_verification_level + 1) &&
          decide (d.action = VAction.needs_correction)))⟩
  else st

/-- Modelled from the spec: expireStaleCorrections(now) — a document in
uploaded status with an outstanding needs_correction decision whose
correctionDeadline is strictly before now transitions to Rejected. -/
def expireStaleCorrections (now : Int) (st : DocState) : DocState :=
  if st.status = DocStatus.uploaded ∧
      st.decisions.any (fun d =>
        decide (d.action = VAction.needs_correction) &&
          (match d.correction_deadline with
           | some dl => decide (dl < now)
           | none => false)) = true then
    ⟨.rejected, st.current_verification_level, st.decisions⟩
  else st

/-- One workflow step on a document: a successful apply, a
resubmission, or a scheduler run of expireStaleCorrections. -/
def Step (N : Nat) (st stp : DocState) : Prop :=
  (∃ auth level action actor deadline escTo,
    apply N auth level action actor deadline escTo st = .ok stp)
  ∨ stp = resubmit st
  ∨ (∃ now, stp = expireStaleCorrections now st)

/-- Document states reachable from a fresh upload. -/
def Reachable (N : Nat) (st : DocState) : Prop :=
  Relation.ReflTransGen (Step N) initDoc st

/-- Workflow state invariant: recorded levels are strictly increasing
in recording order; every recorded level lies in
1 .. current_verification_level + 1; levels 1 .. current_verification_level
each carry an approved decision; a verified document has
current_verification_level = N with all decisions at levels at most N;
a rejected document has a decision at current_verification_level + 1. -/
def Inv (N : Nat) (st : DocState) : Prop :=
  List.Pairwise (fun a b => a < b) (levelsOf st)
  ∧ (∀ d ∈ st.decisions,
      1 ≤ d.verification_level ∧ d.verification_level ≤ st.current_verification_level + 1)
  ∧ (∀ l, 1 ≤ l → l ≤ st.current_verification_level →
      ∃ d ∈ st.decisions, d.verification_level = l ∧ d.action = VAction.approved)
  ∧ (st.status = DocStatus.verified →
      st.current_verification_level = N ∧ ∀ d ∈ st.decisions, d.verification_level ≤ N)
  ∧ (st.status = DocStatus.rejected →
      ∃ d ∈ st.decisions, d.verification_level = st.current_verification_level + 1)

end Wf

/-- Driver status and eligibility fields as read by the eligibility
check (src/backend/drivers/models.py).  Dates are represented as
integers. -/
structure Driver where
  status : String
  is_verified : Bool
  license_expiry_date : Int
  medical_certificate_expiry : Option Int
deriving DecidableEq

/-- Embedding of Driver.is_license_expired
(src/backend/drivers/models.py): license_expiry_date < today. -/
def is_license_expired (today : Int) (d : Driver) : Bool :=
  decide (d.license_expiry_date < today)

/-- Embedding of Driver.is_medical_certificate_expired
(src/backend/drivers/models.py): if the expiry date is present, compare
with today; a missing medical certificate expiry returns True. -/
def is_medical_certificate_expired (today : Int) (d : Driver) : Bool :=
  match d.medical_certificate_expiry with
  | some e => decide (e < today)
  | none => true

/-- Embedding of Driver.is_eligible_to_drive
(src/backend/drivers/models.py): status == active and is_verified and
not is_license_expired and not is_medical_certificate_expired. -/
def is_eligible_to_drive (today : Int) (d : Driver) : Bool :=
  (d.status == "active") && d.is_verified &&
    !(is_license_expired today d) && !(is_medical_certificate_expired today d)

/-- Document fields read by the document expiry check
(src/backend/documents/models.py): status, current level and the
nullable expiry_date. -/
structure DocumentRow where
  status : DocStatus
  current_verification_level : Nat
  expiry_date : Option Int
deriving DecidableEq

/-- Embedding of Document.is_expired (src/backend/documents/models.py):
if self.expiry_date: return self.expiry_date < timezone.now().date();
return False. -/
def document_is_expired (today : Int) (doc : DocumentRow) : Bool :=
  match doc.expiry_date with
  | some e => decide (e < today)
  | none => false

/-- Leaf C of the concrete scenario of the spec: interval [3,4], level 2. -/
def treeC : VTree := .node ⟨3, 3, 4, 2⟩ []

/-- Node R of the concrete scenario of the spec: interval [2,5], level 1,
one child C. -/
def treeR : VTree := .node ⟨2, 2, 5, 1⟩ [treeC]

/-- Root S of the concrete scenario of the spec: interval [1,6], level 0,
one child R. -/
def treeS : VTree := .node ⟨1, 1, 6, 0⟩ [treeR]

/-- A stored root row used to exhibit the behaviour of get_children on a
store whose parent pointers disagree with its intervals. -/
def exRowP : VRow := ⟨none, ⟨1, 1, 4, 0⟩⟩

/-- A stored row whose interval and level lie inside exRowP but whose
parent pointer is null. -/
def exRowC : VRow := ⟨none, ⟨2, 2, 3, 1⟩⟩

/-- The two-row store combining exRowP and exRowC. -/
def exStore : List VRow := [exRowP, exRowC]

/-- Root vendor row for the deleteSubtree example. -/
def delRoot : VRow := ⟨none, ⟨1, 1, 4, 0⟩⟩

/-- Child vendor row for the deleteSubtree example. -/
def delChild : VRow := ⟨some 1, ⟨2, 2, 3, 1⟩⟩

/-- A permission grant owned by the child vendor of the deleteSubtree
example. -/
def delGrant : VendorPermission := ⟨2, 10, 1, 11, false, false, none, true⟩

theorem sizeT_pos (t : VTree) : 1 ≤ sizeT t := by
  cases t with
  | node i cs => simp [sizeT]

theorem sizeT_le_sizeF {c : VTree} {cs : List VTree} (h : c ∈ cs) : sizeT c ≤ sizeF cs := by
  induction cs with
  | nil => cases h
  | cons d ds ih =>
    rcases List.mem_cons.mp h with h1 | h1
    · subst h1; simp [sizeF]
    · have := ih h1
      simp [sizeF]
      omega

theorem sizeT_lt_of_mem_children {c t : VTree} (h : c ∈ t.children) : sizeT c < sizeT t := by
  cases t with
  | node i cs =>
    simp only [VTree.children] at h
    have := sizeT_le_sizeF h
    simp [sizeT]
    omega

/-- Strong induction over trees with the induction hypothesis available
for every direct child. -/
theorem VTree.inductionSize {P : VTree → Prop}
    (h : ∀ t : VTree, (∀ c ∈ t.children, P c) → P t) : ∀ t, P t := by
  have key : ∀ n : Nat, ∀ t : VTree, sizeT t ≤ n → P t := by
    intro n
    induction n with
    | zero => intro t ht; have := sizeT_pos t; omega
    | succ n ih =>
      intro t ht
      apply h
      intro c hc
      apply ih
      have := sizeT_lt_of_mem_children hc
      omega
  intro t
  exact key (sizeT t) t (le_refl _)

theorem mem_subtreesF {x : VTree} {cs : List VTree} :
    x ∈ subtreesF cs ↔ ∃ c ∈ cs, x ∈ subtreesT c := by
  induction cs with
  | nil => simp [subtreesF]
  | cons d ds ih => simp [subtreesF, ih]

theorem self_mem_subtreesT (t : VTree) : t ∈ subtreesT t := by
  cases t with
  | node i cs => simp [subtreesT]

theorem mem_subtreesT_cases {x t : VTree} (h : x ∈ subtreesT t) :
    x = t ∨ ∃ c ∈ t.children, x ∈ subtreesT c := by
  cases t with
  | node i cs =>
    rw [subtreesT, List.mem_cons, mem_subtreesF] at h
    simpa [VTree.children] using h

theorem mem_subtreesT_of_child {x c t : VTree} (hc : c ∈ t.children) (hx : x ∈ subtreesT c) :
    x ∈ subtreesT t := by
  cases t with
  | node i cs =>
    rw [subtreesT, List.mem_cons, mem_subtreesF]
    simp only [VTree.children] at hc
    exact Or.inr ⟨c, hc, hx⟩

theorem desc_of_mem_subtreesT {x t : VTree} (h : x ∈ subtreesT t) : x = t ∨ Desc t x := by
  induction t using VTree.inductionSize with
  | _ t ih =>
    rcases mem_subtreesT_cases h with h1 | ⟨c, hc, hx⟩
    · exact Or.inl h1
    · rcases ih c hc hx with h2 | h2
      · exact Or.inr (Relation.TransGen.single (h2 ▸ hc))
      · exact Or.inr (Relation.TransGen.head hc h2)

theorem valid_child {t c : VTree} (hv : Valid t) (hc : c ∈ t.children) : Valid c := by
  cases hv with
  | node i cs hlr htight hwithin hlevel hsib hrec =>
    exact hrec c (by simpa [VTree.children] using hc)

theorem valid_within {t c : VTree} (hv : Valid t) (hc : c ∈ t.children) :
    t.inf.lft < c.inf.lft ∧ c.inf.rght < t.inf.rght := by
  cases hv with
  | node i cs hlr htight hwithin hlevel hsib hrec =>
    exact hwithin c (by simpa [VTree.children] using hc)

theorem valid_level {t c : VTree} (hv : Valid t) (hc : c ∈ t.children) :
    c.inf.level = t.inf.level + 1 := by
  cases hv with
  | node i cs hlr htight hwithin hlevel hsib hrec =>
    exact hlevel c (by simpa [VTree.children] using hc)

theorem valid_lt {t : VTree} (hv : Valid t) : t.inf.lft < t.inf.rght := by
  cases hv with
  | node i cs hlr htight hwithin hlevel hsib hrec => exact hlr

theorem valid_sib {t : VTree} (hv : Valid t) :
    List.Pairwise (fun x y => x.inf.rght < y.inf.lft) t.children := by
  cases hv with
  | node i cs hlr htight hwithin hlevel hsib hrec => simpa [VTree.children] using hsib

theorem valid_sub {t x : VTree} (hv : Valid t) (hx : x ∈ subtreesT t) : Valid x := by
  induction t using VTree.inductionSize with
  | _ t ih =>
    rcases mem_subtreesT_cases hx with h1 | ⟨c, hc, h1⟩
    · exact h1 ▸ hv
    · exact ih c hc (valid_child hv hc) h1

theorem within_all {t x : VTree} (hv : Valid t) (hx : x ∈ subtreesT t) :
    t.inf.lft ≤ x.inf.lft ∧ x.inf.rght ≤ t.inf.rght := by
  induction t using VTree.inductionSize with
  | _ t ih =>
    rcases mem_subtreesT_cases hx with h1 | ⟨c, hc, h1⟩
    · subst h1; exact ⟨le_refl _, le_refl _⟩
    · have hw := valid_within hv hc
      have := ih c hc (valid_child hv hc) h1
      omega

theorem desc_valid {a b : VTree} (hv : Valid a) (hd : Desc a b) : Valid b := by
  induction hd with
  | single h => exact valid_child hv h
  | tail h1 h2 ih => exact valid_child ih h2

theorem desc_strict {a b : VTree} (hv : Valid a) (hd : Desc a b) :
    a.inf.lft < b.inf.lft ∧ b.inf.rght < a.inf.rght := by
  induction hd with
  | single h => exact valid_within hv h
  | tail h1 h2 ih =>
    have hvc := desc_valid hv h1
    have hw := valid_within hvc h2
    omega

theorem desc_level {a b : VTree} (hv : Valid a) (hd : Desc a b) :
    a.inf.level < b.inf.level := by
  induction hd with
  | single h => have := valid_level hv h; omega
  | tail h1 h2 ih =>
    have hvc := desc_valid hv h1
    have := valid_level hvc h2
    omega

theorem pairwise_two {α : Type} {r : α → α → Prop} {l : List α} (hp : List.Pairwise r l)
    {a b : α} (ha : a ∈ l) (hb : b ∈ l) : a = b ∨ r a b ∨ r b a := by
  induction l with
  | nil => cases ha
  | cons x xs ih =>
    rcases List.pairwise_cons.mp hp with ⟨hx, hxs⟩
    rcases List.mem_cons.mp ha with h1 | h1 <;> rcases List.mem_cons.mp hb with h2 | h2
    · exact Or.inl (h1.trans h2.symm)
    · exact Or.inr (Or.inl (h1 ▸ hx b h2))
    · exact Or.inr (Or.inr (h2 ▸ hx a h1))
    · exact ih hxs h1 h2

/-- Any two subtrees of a valid tree are equal, nested one way, nested
the other way, or interval-disjoint. -/
theorem trichotomy {t a b : VTree} (hv : Valid t) (ha : a ∈ subtreesT t)
    (hb : b ∈ subtreesT t) :
    a = b ∨ Desc a b ∨ Desc b a ∨
      (a.inf.rght < b.inf.lft ∨ b.inf.rght < a.inf.lft) := by
  induction t using VTree.inductionSize with
  | _ t ih =>
    rcases mem_subtreesT_cases ha with h1 | ⟨c, hc, h1⟩
    · subst h1
      rcases desc_of_mem_subtreesT hb with h2 | h2
      · exact Or.inl h2.symm
      · exact Or.inr (Or.inl h2)
    · rcases mem_subtreesT_cases hb with h2 | ⟨c2, hc2, h2⟩
      · subst h2
        rcases desc_of_mem_subtreesT ha with h3 | h3
        · exact Or.inl h3
        · exact Or.inr (Or.inr (Or.inl h3))
      · by_cases hcc : c = c2
        · subst hcc
          exact ih c hc (valid_child hv hc) h1 h2
        · rcases pairwise_two (valid_sib hv) hc hc2 with h3 | h3 | h3
          · exact absurd h3 hcc
          · have hwa := within_all (valid_child hv hc) h1
            have hwb := within_all (valid_child hv hc2) h2
            exact Or.inr (Or.inr (Or.inr (Or.inl (by omega))))
          · have hwa := within_all (valid_child hv hc) h1
            have hwb := within_all (valid_child hv hc2) h2
            exact Or.inr (Or.inr (Or.inr (Or.inr (by omega))))

/-- Interval containment between subtrees of a valid tree implies the
parent-chain ancestor relation. -/
theorem desc_of_interval {t a b : VTree} (hv : Valid t) (ha : a ∈ subtreesT t)
    (hb : b ∈ subtreesT t) (h1 : a.inf.lft < b.inf.lft) (h2 : b.inf.rght < a.inf.rght) :
    Desc a b := by
  rcases trichotomy hv ha hb with h | h | h | h | h
  · subst h; omega
  · exact h
  · have := desc_strict (valid_sub hv hb) h
    omega
  · have := valid_lt (valid_sub hv hb)
    omega
  · have := valid_lt (valid_sub hv hb)
    omega

theorem mem_rowsF {r : VRow} {pid : Nat} {cs : List VTree} :
    r ∈ rowsF pid cs ↔ ∃ c ∈ cs, r ∈ rowsT (some pid) c := by
  induction cs with
  | nil => simp [rowsF]
  | cons d ds ih => simp [rowsF, ih]

theorem mem_rowsT_cases {r : VRow} {pid : Option Nat} {t : VTree} (h : r ∈ rowsT pid t) :
    r = ⟨pid, t.inf⟩ ∨ ∃ c ∈ t.children, r ∈ rowsT (some t.inf.id) c := by
  cases t with
  | node i cs =>
    rw [rowsT, List.mem_cons, mem_rowsF] at h
    simpa [VTree.children, VTree.inf] using h

theorem rowsT_char {r : VRow} {pid : Option Nat} {t : VTree} (h : r ∈ rowsT pid t) :
    r = ⟨pid, t.inf⟩ ∨
      ∃ p ∈ subtreesT t, ∃ c ∈ p.children, r = ⟨some p.inf.id, c.inf⟩ := by
  induction t using VTree.inductionSize generalizing pid with
  | _ t ih =>
    rcases mem_rowsT_cases h with h1 | ⟨c, hc, h1⟩
    · exact Or.inl h1
    · rcases ih c hc h1 with h2 | ⟨p, hp, c2, hc2, h2⟩
      · exact Or.inr ⟨t, self_mem_subtreesT t, c, hc, h2⟩
      · exact Or.inr ⟨p, mem_subtreesT_of_child hc hp, c2, hc2, h2⟩

theorem rowsT_head (pid : Option Nat) (t : VTree) : (⟨pid, t.inf⟩ : VRow) ∈ rowsT pid t := by
  cases t with
  | node i cs => simp [rowsT, VTree.inf]

theorem rowsT_self_child {p c : VTree} {pid : Option Nat} (hc : c ∈ p.children) :
    (⟨some p.inf.id, c.inf⟩ : VRow) ∈ rowsT pid p := by
  cases p with
  | node i cs =>
    rw [rowsT, List.mem_cons, mem_rowsF]
    simp only [VTree.children] at hc
    exact Or.inr ⟨c, hc, by simpa [VTree.inf] using rowsT_head (some (VInfo.id i)) c⟩

theorem rowsT_of_child {p c t : VTree} {pid : Option Nat} (hp : p ∈ subtreesT t)
    (hc : c ∈ p.children) : (⟨some p.inf.id, c.inf⟩ : VRow) ∈ rowsT pid t := by
  induction t using VTree.inductionSize generalizing pid with
  | _ t ih =>
    rcases mem_subtreesT_cases hp with h1 | ⟨d, hd, h1⟩
    · exact h1 ▸ rowsT_self_child hc
    · cases t with
      | node i cs =>
        rw [rowsT, List.mem_cons, mem_rowsF]
        simp only [VTree.children] at hd
        exact Or.inr ⟨d, hd, ih d (by simpa [VTree.children] using hd) h1⟩

theorem subtreesT_trans {x p t : VTree} (hp : p ∈ subtreesT t) (hx : x ∈ subtreesT p) :
    x ∈ subtreesT t := by
  induction t using VTree.inductionSize with
  | _ t ih =>
    rcases mem_subtreesT_cases hp with h1 | ⟨c, hc, h1⟩
    · exact h1 ▸ hx
    · exact mem_subtreesT_of_child hc (ih c hc h1)

theorem child_mem_subtreesT {c p t : VTree} (hp : p ∈ subtreesT t) (hc : c ∈ p.children) :
    c ∈ subtreesT t :=
  subtreesT_trans hp (mem_subtreesT_of_child hc (self_mem_subtreesT c))

theorem rowsT_inf_sub {r : VRow} {pid : Option Nat} {t : VTree} (h : r ∈ rowsT pid t) :
    ∃ x ∈ subtreesT t, x.inf = r.inf := by
  rcases rowsT_char h with h1 | ⟨p, hp, c, hc, h1⟩
  · exact ⟨t, self_mem_subtreesT t, by rw [h1]⟩
  · exact ⟨c, child_mem_subtreesT hp hc, by rw [h1]⟩

theorem id_inj {t x y : VTree} (hids : ((subtreesT t).map (fun s => s.inf.id)).Nodup)
    (hx : x ∈ subtreesT t) (hy : y ∈ subtreesT t) (h : x.inf.id = y.inf.id) : x = y :=
  List.inj_on_of_nodup_map hids hx hy h

/-- In a valid tree a node has at most one parent: two subtrees sharing
a direct child are equal. -/
theorem parent_unique {t p q c : VTree} (hv : Valid t) (hp : p ∈ subtreesT t)
    (hq : q ∈ subtreesT t) (hcp : c ∈ p.children) (hcq : c ∈ q.children) : p = q := by
  have hvp := valid_sub hv hp
  have hvq := valid_sub hv hq
  have hlp := valid_level hvp hcp
  have hlq := valid_level hvq hcq
  have hwp := valid_within hvp hcp
  have hwq := valid_within hvq hcq
  have hvc := valid_child hvp hcp
  have hclt := valid_lt hvc
  rcases trichotomy hv hp hq with h | h | h | h | h
  · exact h
  · have := desc_level hvp h; omega
  · have := desc_level hvq h; omega
  · omega
  · omega

/-- Head decomposition of the ancestor chain: the first step from a is
into a direct child. -/
theorem desc_head {a b : VTree} (hd : Desc a b) :
    ∃ c ∈ a.children, c = b ∨ Desc c b := by
  rcases Relation.TransGen.head'_iff.mp hd with ⟨c, hstep, hrest⟩
  refine ⟨c, hstep, ?_⟩
  rcases (Relation.reflTransGen_iff_eq_or_transGen.mp hrest) with h | h
  · exact Or.inl h.symm
  · exact Or.inr h

/-- Pointwise agreement, on every stored row of a valid tree, between
the parent-foreign-key test used by get_children and the
interval-plus-level characterization of the spec. -/
theorem parent_iff_interval {t p : VTree} {r : VRow} (hvt : ValidTree t)
    (hp : p ∈ subtreesT t) (hr : r ∈ storeOf t) :
    r.parentId = some p.inf.id ↔
      (p.inf.lft < r.inf.lft ∧ r.inf.rght < p.inf.rght ∧ r.inf.level = p.inf.level + 1) := by
  obtain ⟨hv, hroot1, hroot0, hids⟩ := hvt
  constructor
  · intro h
    rcases rowsT_char hr with h1 | ⟨q, hq, c, hc, h1⟩
    · rw [h1] at h; cases h
    · have hcid : r.inf = c.inf := by rw [h1]
      have hqid : r.parentId = some q.inf.id := by rw [h1]
      rw [h] at hqid
      have hpq : q = p := id_inj hids hq hp (by injection hqid.symm)
      subst hpq
      have hw := valid_within (valid_sub hv hq) hc
      have hl := valid_level (valid_sub hv hq) hc
      rw [hcid]
      exact ⟨hw.1, hw.2, hl⟩
  · intro hcond
    obtain ⟨h1, h2, h3⟩ := hcond
    obtain ⟨x, hx, hxr⟩ := rowsT_inf_sub hr
    have hxl : x.inf.lft = r.inf.lft := by rw [hxr]
    have hxrg : x.inf.rght = r.inf.rght := by rw [hxr]
    have hxlev : x.inf.level = r.inf.level := by rw [hxr]
    have hdesc : Desc p x := desc_of_interval hv hp hx (by omega) (by omega)
    rcases desc_head hdesc with ⟨c, hc, hcx⟩
    have hcsub : c ∈ subtreesT t := child_mem_subtreesT hp hc
    have hxc : c = x := by
      rcases hcx with h | h
      · exact h
      · exfalso
        have hl1 := valid_level (valid_sub hv hp) hc
        have hl2 := desc_level (valid_sub hv hcsub) h
        omega
    subst hxc
    rcases rowsT_char hr with hh | ⟨q, hq, c2, hc2, hh⟩
    · exfalso
      have hti : t.inf = r.inf := by rw [hh]
      have hteq : t = c := id_inj hids (self_mem_subtreesT t) hcsub (by rw [hti, ← hxr])
      have hd2 : Desc p t := by rw [hteq]; exact hdesc
      have := desc_strict (valid_sub hv hp) hd2
      have := within_all hv hp
      omega
    · have hc2sub : c2 ∈ subtreesT t := child_mem_subtreesT hq hc2
      have hr2 : r.inf = c2.inf := by rw [hh]
      have hceq : c2 = c := id_inj hids hc2sub hcsub (by rw [← hr2, ← hxr])
      subst hceq
      have hqp : q = p := parent_unique hv hq hp hc2 hc
      subst hqp
      rw [hh]

namespace Wf

theorem apply_error_of_conflict {N : Nat} {level : Nat} {action : VAction} {actor : Nat}
    {deadline : Option Int} {escTo : Option Nat} {st : DocState}
    (h : ∃ d ∈ st.decisions, d.verification_level = level) :
    apply N true level action actor deadline escTo st = .error .verificationConflict := by
  obtain ⟨d, hd, hdl⟩ := h
  unfold apply
  have hany : st.decisions.any (fun d => decide (d.verification_level = level)) = true := by
    rw [List.any_eq_true]
    exact ⟨d, hd, by simp [hdl]⟩
  simp [hany]

theorem apply_error_of_order {N : Nat} {level : Nat} {action : VAction} {actor : Nat}
    {deadline : Option Int} {escTo : Option Nat} {st : DocState}
    (hno : ∀ d ∈ st.decisions, d.verification_level ≠ level)
    (hord : level ≠ st.current_verification_level + 1) :
    apply N true level action actor deadline escTo st = .error .outOfOrder := by
  unfold apply
  have hany : st.decisions.any (fun d => decide (d.verification_level = level)) = false := by
    rw [List.any_eq_false]
    intro d hd
    simp [hno d hd]
  simp [hany, hord]

theorem apply_ok_inv {N : Nat} {auth : Bool} {level : Nat} {action : VAction} {actor : Nat}
    {deadline : Option Int} {escTo : Option Nat} {st stp : DocState}
    (h : apply N auth level action actor deadline escTo st = .ok stp) :
    auth = true ∧ (∀ d ∈ st.decisions, d.verification_level ≠ level) ∧
      level = st.current_verification_level + 1 ∧
      ((action = .approved ∧ level = N ∧
          stp = ⟨.verified, N, st.decisions ++ [⟨level, .approved, actor, deadline, escTo⟩]⟩)
        ∨ (action = .approved ∧ level ≠ N ∧
          stp = ⟨.under_review, level,
            st.decisions ++ [⟨level, .approved, actor, deadline, escTo⟩]⟩)
        ∨ (action = .rejected ∧
          stp = ⟨.rejected, st.current_verification_level,
            st.decisions ++ [⟨level, .rejected, actor, deadline, escTo⟩]⟩)
        ∨ (∃ dl, action = .needs_correction ∧ deadline = some dl ∧
          stp = ⟨.uploaded, st.current_verification_level,
            st.decisions ++ [⟨level, .needs_correction, actor, some dl, escTo⟩]⟩)
        ∨ (∃ e, action = .escalated ∧ escTo = some e ∧
          stp = ⟨.under_review, st.current_verification_level,
            st.decisions ++ [⟨level, .escalated, actor, deadline, some e⟩]⟩)) := by
  unfold apply at h
  cases auth with
  | false => simp at h
  | true =>
    simp only [Bool.not_true, if_neg (by simp : ¬ (false = true))] at h
    by_cases hany : st.decisions.any (fun d => decide (d.verification_level = level)) = true
    · rw [if_pos hany] at h
      exact absurd h (by simp)
    · rw [if_neg hany] at h
      have hno : ∀ d ∈ st.decisions, d.verification_level ≠ level := by
        rw [Bool.not_eq_true, List.any_eq_false] at hany
        intro d hd
        have := hany d hd
        simpa using this
      by_cases hord : level = st.current_verification_level + 1
      · rw [if_neg (by simp [hord])] at h
        refine ⟨rfl, hno, hord, ?_⟩
        cases action with
        | approved =>
          by_cases hN : level = N
          · rw [if_pos (by simp [hN])] at h
            exact Or.inl ⟨rfl, hN, (by injection h with h2; exact h2.symm)⟩
          · rw [if_neg (by simp [hN])] at h
            exact Or.inr (Or.inl ⟨rfl, hN, (by injection h with h2; exact h2.symm)⟩)
        | rejected =>
          exact Or.inr (Or.inr (Or.inl ⟨rfl, (by injection h with h2; exact h2.symm)⟩))
        | needs_correction =>
          cases deadline with
          | none => exact absurd h (by simp)
          | some dl =>
            exact Or.inr (Or.inr (Or.inr (Or.inl
              ⟨dl, rfl, rfl, (by injection h with h2; exact h2.symm)⟩)))
        | escalated =>
          cases escTo with
          | none => exact absurd h (by simp)
          | some e =>
            exact Or.inr (Or.inr (Or.inr (Or.inr
              ⟨e, rfl, rfl, (by injection h with h2; exact h2.symm)⟩)))
        | pending => exact absurd h (by simp)
      · rw [if_pos (by simp [hord])] at h
        exact absurd h (by simp)

theorem levels_append (st : DocState) (d : DocumentVerification) :
    (st.decisions ++ [d]).map (fun e => e.verification_level) =
      levelsOf st ++ [d.verification_level] := by
  simp [levelsOf]

theorem pairwise_levels_append {st : DocState} {d : DocumentVerification}
    (ha : List.Pairwise (fun a b => a < b) (levelsOf st))
    (hb : ∀ e ∈ st.decisions, e.verification_level ≤ st.current_verification_level + 1)
    (hno : ∀ e ∈ st.decisions, e.verification_level ≠ st.current_verification_level + 1)
    (hd : d.verification_level = st.current_verification_level + 1) :
    List.Pairwise (fun a b => a < b)
      ((st.decisions ++ [d]).map (fun e => e.verification_level)) := by
  rw [levels_append]
  rw [List.pairwise_append]
  refine ⟨ha, by simp, ?_⟩
  intro a hma b hmb
  simp only [List.mem_singleton] at hmb
  subst hmb
  rw [hd]
  simp only [levelsOf, List.mem_map] at hma
  obtain ⟨e, he, hea⟩ := hma
  have h1 := hb e he
  have h2 := hno e he
  omega

theorem inv_initDoc (N : Nat) : Inv N initDoc := by
  refine ⟨by simp [levelsOf, initDoc], by simp [initDoc], ?_, by simp [initDoc], by simp [initDoc]⟩
  intro l h1 h2
  simp [initDoc] at h2
  omega

theorem nodup_levels {st : DocState}
    (ha : List.Pairwise (fun a b => a < b) (levelsOf st)) : (levelsOf st).Nodup :=
  ha.imp (fun h => Nat.ne_of_lt h)

theorem decision_unique {st : DocState}
    (ha : List.Pairwise (fun a b => a < b) (levelsOf st))
    {d e : DocumentVerification} (hd : d ∈ st.decisions) (he : e ∈ st.decisions)
    (hl : d.verification_level = e.verification_level) : d = e :=
  List.inj_on_of_nodup_map (nodup_levels ha) hd he hl

theorem nonapproved_at_top {N : Nat} {st : DocState} (hInv : Inv N st)
    {d : DocumentVerification} (hd : d ∈ st.decisions)
    (hna : d.action ≠ VAction.approved) :
    d.verification_level = st.current_verification_level + 1 := by
  obtain ⟨ha, hb, hc, _, _⟩ := hInv
  have h1 := hb d hd
  by_contra hne
  have hle : d.verification_level ≤ st.current_verification_level := by omega
  obtain ⟨e, he, hel, hea⟩ := hc d.verification_level (by omega) hle
  have := decision_unique ha hd he hel.symm
  subst this
  exact hna hea

theorem inv_apply {N : Nat} {auth : Bool} {level : Nat} {action : VAction} {actor : Nat}
    {deadline : Option Int} {escTo : Option Nat} {st stp : DocState} (hInv : Inv N st)
    (h : apply N auth level action actor deadline escTo st = .ok stp) : Inv N stp := by
  obtain ⟨ha, hb, hc, hd, he⟩ := hInv
  obtain ⟨-, hno, hord, hcases⟩ := apply_ok_inv h
  have hnol : ∀ e ∈ st.decisions, e.verification_level ≠ st.current_verification_level + 1 := by
    intro e hme
    have := hno e hme
    omega
  have hble : ∀ e ∈ st.decisions, e.verification_level ≤ st.current_verification_level + 1 := by
    intro e hme
    exact (hb e hme).2
  rcases hcases with ⟨hact, hN, hstp⟩ | ⟨hact, hN, hstp⟩ | ⟨hact, hstp⟩ |
      ⟨dl, hact, hdl, hstp⟩ | ⟨e0, hact, hesc, hstp⟩
  · -- approved at level N: document becomes verified
    subst hstp
    refine ⟨?_, ?_, ?_, ?_, ?_⟩
    · exact pairwise_levels_append ha hble hnol (by simp [hord])
    · intro d hmd
      simp only [List.mem_append, List.mem_singleton] at hmd
      rcases hmd with hmd | hmd
      · have := hb d hmd
        simp only []
        omega
      · subst hmd
        simp only []
        omega
    · intro l h1 h2
      simp only [] at h2
      by_cases hl : l ≤ st.current_verification_level
      · obtain ⟨d, hmd, h3, h4⟩ := hc l h1 hl
        exact ⟨d, by simp [hmd], h3, h4⟩
      · have hleq : l = level := by omega
        refine ⟨⟨level, .approved, actor, deadline, escTo⟩, by simp, by simp [hleq], rfl⟩
    · intro _
      refine ⟨rfl, ?_⟩
      intro d hmd
      simp only [List.mem_append, List.mem_singleton] at hmd
      rcases hmd with hmd | hmd
      · have := hb d hmd; omega
      · subst hmd; simp only []; omega
    · intro hcon
      simp at hcon
  · -- approved below N: under review at the approved level
    subst hstp
    refine ⟨?_, ?_, ?_, ?_, ?_⟩
    · exact pairwise_levels_append ha hble hnol (by simp [hord])
    · intro d hmd
      simp only [List.mem_append, List.mem_singleton] at hmd
      rcases hmd with hmd | hmd
      · have := hb d hmd
        simp only []
        omega
      · subst hmd
        simp only []
        omega
    · intro l h1 h2
      simp only [] at h2
      by_cases hl : l ≤ st.current_verification_level
      · obtain ⟨d, hmd, h3, h4⟩ := hc l h1 hl
        exact ⟨d, by simp [hmd], h3, h4⟩
      · have hleq : l = level := by omega
        refine ⟨⟨level, .approved, actor, deadline, escTo⟩, by simp, by simp [hleq], rfl⟩
    · intro hcon
      simp at hcon
    · intro hcon
      simp at hcon
  · -- rejected: terminal status, decision recorded at the attempted level
    subst hstp
    refine ⟨?_, ?_, ?_, ?_, ?_⟩
    · exact pairwise_levels_append ha hble hnol (by simp [hord])
    · intro d hmd
      simp only [List.mem_append, List.mem_singleton] at hmd
      rcases hmd with hmd | hmd
      · have := hb d hmd
        simp only []
        omega
      · subst hmd
        simp only []
        omega
    · intro l h1 h2
      simp only [] at h2
      obtain ⟨d, hmd, h3, h4⟩ := hc l h1 h2
      exact ⟨d, by simp [hmd], h3, h4⟩
    · intro hcon
      simp at hcon
    · intro _
      exact ⟨⟨level, .rejected, actor, deadline, escTo⟩, by simp, by simp [hord]⟩
  · -- needs_correction: back to uploaded, level unchanged
    subst hstp
    refine ⟨?_, ?_, ?_, ?_, ?_⟩
    · exact pairwise_levels_append ha hble hnol (by simp [hord])
    · intro d hmd
      simp only [List.mem_append, List.mem_singleton] at hmd
      rcases hmd with hmd | hmd
      · have := hb d hmd
        simp only []
        omega
      · subst hmd
        simp only []
        omega
    · intro l h1 h2
      simp only [] at h2
      obtain ⟨d, hmd, h3, h4⟩ := hc l h1 h2
      exact ⟨d, by simp [hmd], h3, h4⟩
    · intro hcon
      simp at hcon
    · intro hcon
      simp at hcon
  · -- escalated: level unchanged, stays under review
    subst hstp
    refine ⟨?_, ?_, ?_, ?_, ?_⟩
    · exact pairwise_levels_append ha hble hnol (by simp [hord])
    · intro d hmd
      simp only [List.mem_append, List.mem_singleton] at hmd
      rcases hmd with hmd | hmd
      · have := hb d hmd
        simp only []
        omega
      · subst hmd
        simp only []
        omega
    · intro l h1 h2
      simp only [] at h2
      obtain ⟨d, hmd, h3, h4⟩ := hc l h1 h2
      exact ⟨d, by simp [hmd], h3, h4⟩
    · intro hcon
      simp at hcon
    · intro hcon
      simp at hcon

theorem inv_resubmit {N : Nat} {st : DocState} (hInv : Inv N st) : Inv N (resubmit st) := by
  obtain ⟨ha, hb, hc, hd, he⟩ := hInv
  unfold resubmit
  by_cases hs : st.status = DocStatus.uploaded
  · rw [if_pos hs]
    have hsub : ∀ d, d ∈ st.decisions.filter (fun d =>
        !(decide (d.verification_level = st.current_verification_level + 1) &&
          decide (d.action = VAction.needs_correction))) → d ∈ st.decisions := by
      intro d hmd
      exact (List.mem_filter.mp hmd).1
    refine ⟨?_, ?_, ?_, by simp, by simp⟩
    · have hsl : List.Sublist (st.decisions.filter (fun d =>
          !(decide (d.verification_level = st.current_verification_level + 1) &&
            decide (d.action = VAction.needs_correction)))) st.decisions :=
        List.filter_sublist _
      exact (List.Pairwise.sublist (hsl.map _) ha)
    · intro d hmd
      exact hb d (hsub d hmd)
    · intro l h1 h2
      simp only [] at h2
      obtain ⟨d, hmd, h3, h4⟩ := hc l h1 h2
      refine ⟨d, List.mem_filter.mpr ⟨hmd, ?_⟩, h3, h4⟩
      simp only [Bool.not_eq_eq_eq_not, Bool.not_true, Bool.and_eq_false_imp]
      intro hcon
      exfalso
      have : d.verification_level = st.current_verification_level + 1 := by
        simpa using hcon
      omega
  · rw [if_neg hs]
    exact ⟨ha, hb, hc, hd, he⟩

theorem inv_expire {N : Nat} {now : Int} {st : DocState} (hInv : Inv N st) :
    Inv N (expireStaleCorrections now st) := by
  have hInv2 := hInv
  obtain ⟨ha, hb, hc, hd, he⟩ := hInv2
  unfold expireStaleCorrections
  by_cases hs : st.status = DocStatus.uploaded ∧
      st.decisions.any (fun d =>
        decide (d.action = VAction.needs_correction) &&
          (match d.correction_deadline with
           | some dl => decide (dl < now)
           | none => false)) = true
  · rw [if_pos hs]
    refine ⟨ha, hb, hc, by simp, ?_⟩
    intro _
    obtain ⟨d, hmd, hdprop⟩ := List.any_eq_true.mp hs.2
    have hna : d.action = VAction.needs_correction := by
      have h1 : decide (d.action = VAction.needs_correction) = true := by
        by_contra hcon2
        rw [Bool.not_eq_true] at hcon2
        rw [hcon2] at hdprop
        simp at hdprop
      simpa using h1
    have := nonapproved_at_top hInv hmd (by simp [hna])
    exact ⟨d, hmd, this⟩
  · rw [if_neg hs]
    exact hInv

theorem inv_step {N : Nat} {st stp : DocState} (hInv : Inv N st) (h : Step N st stp) :
    Inv N stp := by
  rcases h with ⟨auth, level, action, actor, deadline, escTo, h⟩ | h | ⟨now, h⟩
  · exact inv_apply hInv h
  · exact h ▸ inv_resubmit hInv
  · exact h ▸ inv_expire hInv

theorem inv_reachable {N : Nat} {st : DocState} (h : Reachable N st) : Inv N st := by
  induction h with
  | refl => exact inv_initDoc N
  | tail h1 h2 ih => exact inv_step ih h2

/-- On a document whose state satisfies the invariant and is rejected,
every apply call fails: the level just decided carries a decision row,
so retrying it conflicts and any other level is out of order. -/
theorem apply_fails_on_rejected {N : Nat} {st : DocState} (hInv : Inv N st)
    (hrej : st.status = DocStatus.rejected) (auth : Bool) (level : Nat) (action : VAction)
    (actor : Nat) (deadline : Option Int) (escTo : Option Nat) :
    ∃ e, apply N auth level action actor deadline escTo st = .error e := by
  obtain ⟨ha, hb, hc, hd, he⟩ := hInv
  obtain ⟨d, hmd, hdl⟩ := he hrej
  cases auth with
  | false => exact ⟨.authorityDenied, by unfold apply; simp⟩
  | true =>
    by_cases hl : level = st.current_verification_level + 1
    · exact ⟨.verificationConflict, apply_error_of_conflict ⟨d, hmd, by omega⟩⟩
    · by_cases hcon : ∃ d2 ∈ st.decisions, d2.verification_level = level
      · exact ⟨.verificationConflict, apply_error_of_conflict hcon⟩
      · push_neg at hcon
        exact ⟨.outOfOrder, apply_error_of_order hcon hl⟩

theorem step_fixed_on_rejected {N : Nat} {st stp : DocState} (hInv : Inv N st)
    (hrej : st.status = DocStatus.rejected) (h : Step N st stp) : stp = st := by
  rcases h with ⟨auth, level, action, actor, deadline, escTo, h⟩ | h | ⟨now, h⟩
  · obtain ⟨e, herr⟩ := apply_fails_on_rejected hInv hrej auth level action actor deadline escTo
    rw [herr] at h
    cases h
  · rw [h]
    unfold resubmit
    rw [if_neg (by simp [hrej])]
  · rw [h]
    unfold expireStaleCorrections
    rw [if_neg (by simp [hrej])]

end Wf

namespace Wf

theorem eq_of_pairwise_lt_of_mem_iff :
    ∀ {l1 l2 : List Nat}, List.Pairwise (fun a b => a < b) l1 →
      List.Pairwise (fun a b => a < b) l2 → (∀ x, x ∈ l1 ↔ x ∈ l2) → l1 = l2 := by
  intro l1
  induction l1 with
  | nil =>
    intro l2 h1 h2 hmem
    cases l2 with
    | nil => rfl
    | cons b t2 => exact absurd ((hmem b).mpr (List.mem_cons_self b t2)) (by simp)
  | cons a t1 ih =>
    intro l2 h1 h2 hmem
    cases l2 with
    | nil => exact absurd ((hmem a).mp (List.mem_cons_self a t1)) (by simp)
    | cons b t2 =>
      rcases List.pairwise_cons.mp h1 with ⟨ha1, ht1⟩
      rcases List.pairwise_cons.mp h2 with ⟨hb1, ht2⟩
      have hab : a = b := by
        have hma : a ∈ b :: t2 := (hmem a).mp (List.mem_cons_self a t1)
        have hmb : b ∈ a :: t1 := (hmem b).mpr (List.mem_cons_self b t2)
        rcases List.mem_cons.mp hma with h | h
        · exact h
        · have h3 := hb1 a h
          rcases List.mem_cons.mp hmb with h4 | h4
          · omega
          · have := ha1 b h4
            omega
      subst hab
      have htails : ∀ x, x ∈ t1 ↔ x ∈ t2 := by
        intro x
        constructor
        · intro hx
          have h3 := ha1 x hx
          rcases List.mem_cons.mp ((hmem x).mp (List.mem_cons_of_mem a hx)) with h4 | h4
          · omega
          · exact h4
        · intro hx
          have h3 := hb1 x hx
          rcases List.mem_cons.mp ((hmem x).mpr (List.mem_cons_of_mem a hx)) with h4 | h4
          · omega
          · exact h4
      rw [ih ht1 ht2 htails]

/-- A reachable verified document carries exactly the approved
decisions at levels 1 .. N, recorded in strictly increasing order. -/
theorem verified_decisions {N : Nat} {st : DocState} (hr : Reachable N st)
    (hv : st.status = DocStatus.verified) :
    st.decisions.map (fun d => (d.verification_level, d.action)) =
      (List.range N).map (fun i => (i + 1, VAction.approved)) := by
  have hInv := inv_reachable hr
  obtain ⟨ha, hb, hc, hd, he⟩ := hInv
  obtain ⟨hcN, hle⟩ := hd hv
  have happ : ∀ d ∈ st.decisions, d.action = VAction.approved := by
    intro d hmd
    by_contra hna
    have h1 := nonapproved_at_top ⟨ha, hb, hc, hd, he⟩ hmd hna
    have h2 := hle d hmd
    omega
  have hlev : levelsOf st = (List.range N).map (fun i => i + 1) := by
    apply eq_of_pairwise_lt_of_mem_iff ha
    · exact (List.pairwise_lt_range N).map _ (fun h => by omega)
    · intro x
      constructor
      · intro hx
        simp only [levelsOf, List.mem_map] at hx
        obtain ⟨d, hmd, hdx⟩ := hx
        have h1 := hb d hmd
        have h2 := hle d hmd
        simp only [List.mem_map, List.mem_range]
        exact ⟨x - 1, by omega, by omega⟩
      · intro hx
        simp only [List.mem_map, List.mem_range] at hx
        obtain ⟨i, hi, hix⟩ := hx
        obtain ⟨d, hmd, h3, -⟩ := hc x (by omega) (by omega)
        simp only [levelsOf, List.mem_map]
        exact ⟨d, hmd, h3⟩
  have h4 : st.decisions.map (fun d => (d.verification_level, d.action)) =
      st.decisions.map (fun d => (d.verification_level, VAction.approved)) :=
    List.map_congr_left (fun d hmd => by rw [happ d hmd])
  have h5 : st.decisions.map (fun d => (d.verification_level, VAction.approved)) =
      (levelsOf st).map (fun l => (l, VAction.approved)) := by
    rw [levelsOf, List.map_map]
    rfl
  rw [h4, h5, hlev, List.map_map]
  rfl

end Wf

theorem mem_sortByLft {r : VRow} {l : List VRow} : r ∈ sortByLft l ↔ r ∈ l :=
  (List.perm_insertionSort lftLe l).mem_iff

theorem validTree_treeS : ValidTree treeS := by
  have hC : Valid treeC := by
    apply Valid.node
    · decide
    · simp [sizeF]
    · intro c hc; simp at hc
    · intro c hc; simp at hc
    · simp
    · intro c hc; simp at hc
  have hR : Valid treeR := by
    apply Valid.node
    · decide
    · simp [sizeF, sizeT, treeC]
    · intro c hc
      simp only [List.mem_singleton] at hc
      subst hc
      constructor <;> decide
    · intro c hc
      simp only [List.mem_singleton] at hc
      subst hc
      decide
    · simp
    · intro c hc
      simp only [List.mem_singleton] at hc
      subst hc
      exact hC
  have hS : Valid treeS := by
    apply Valid.node
    · decide
    · simp [sizeF, sizeT, treeR, treeC]
    · intro c hc
      simp only [List.mem_singleton] at hc
      subst hc
      constructor <;> decide
    · intro c hc
      simp only [List.mem_singleton] at hc
      subst hc
      decide
    · simp
    · intro c hc
      simp only [List.mem_singleton] at hc
      subst hc
      exact hR
  refine ⟨hS, rfl, rfl, ?_⟩
  simp [treeS, treeR, treeC, subtreesT, subtreesF, VTree.inf]

theorem treeR_mem : treeR ∈ subtreesT treeS :=
  child_mem_subtreesT (self_mem_subtreesT treeS) (by simp [treeS, VTree.children])

theorem treeC_mem : treeC ∈ subtreesT treeS :=
  child_mem_subtreesT treeR_mem (by simp [treeR, VTree.children])

/-- C1: for every pair of nodes a, b of a tree satisfying the
nested-interval invariant, is_ancestor_of(a,b) returns true exactly when
a.lft < b.lft and b.rght < a.rght, and this agrees with the ancestor
relation computed by a brute-force walk up the parent-pointer chain. -/
theorem c1_interval_ancestor_agrees_with_parent_chain (t a b : VTree)
    (hv : ValidTree t) (ha : a ∈ subtreesT t) (hb : b ∈ subtreesT t) :
    (is_ancestor_of a.inf b.inf = true ↔
      (a.inf.lft < b.inf.lft ∧ b.inf.rght < a.inf.rght))
    ∧ (is_ancestor_of a.inf b.inf = true ↔ Desc a b) := by
  have hfirst : is_ancestor_of a.inf b.inf = true ↔
      (a.inf.lft < b.inf.lft ∧ b.inf.rght < a.inf.rght) := by
    simp [is_ancestor_of]
  refine ⟨hfirst, hfirst.trans ?_⟩
  constructor
  · rintro ⟨h1, h2⟩
    exact desc_of_interval hv.1 ha hb h1 h2
  · intro h
    exact desc_strict (valid_sub hv.1 ha) h

/-- Witness for C1 at the concrete scenario tree of the spec:
S = [1,6], R = [2,5], C = [3,4]. -/
theorem c1_witness :
    ValidTree treeS ∧ treeS ∈ subtreesT treeS ∧ treeC ∈ subtreesT treeS ∧
      (is_ancestor_of treeS.inf treeC.inf = true ↔ Desc treeS treeC) :=
  ⟨validTree_treeS, self_mem_subtreesT treeS, treeC_mem,
    (c1_interval_ancestor_agrees_with_parent_chain treeS treeS treeC validTree_treeS
      (self_mem_subtreesT treeS) treeC_mem).2⟩

/-- C8: no node is its own ancestor — for every assignment of interval
endpoints, is_ancestor_of(n,n) and is_descendant_of(n,n) are false. -/
theorem c8_no_node_own_ancestor (v : VInfo) :
    is_ancestor_of v v = false ∧ is_descendant_of v v = false := by
  simp [is_ancestor_of, is_descendant_of]

/-- C4 (amended): get_children selects by the parent foreign key and
orders by lft; on every valid tree its result coincides with the
interval-containment characterization at level p.level + 1, returns
exactly the direct children rows of p, and is sorted by left endpoint. -/
theorem c4_children_parent_fk_matches_intervals (t p : VTree) (hvt : ValidTree t)
    (hp : p ∈ subtreesT t) :
    get_children (storeOf t) p.inf = childrenByInterval (storeOf t) p.inf
    ∧ (∀ r : VRow, r ∈ get_children (storeOf t) p.inf ↔
        ∃ c ∈ p.children, r = ⟨some p.inf.id, c.inf⟩)
    ∧ List.Sorted lftLe (get_children (storeOf t) p.inf) := by
  refine ⟨?_, ?_, ?_⟩
  · unfold get_children childrenByInterval
    congr 1
    apply List.filter_congr
    intro r hr
    exact decide_eq_decide.mpr (parent_iff_interval hvt hp hr)
  · intro r
    rw [get_children, mem_sortByLft, List.mem_filter]
    constructor
    · rintro ⟨hr, hpid⟩
      have hpid2 : r.parentId = some p.inf.id := of_decide_eq_true hpid
      rcases rowsT_char hr with hh | ⟨q, hq, c, hc, hh⟩
      · rw [hh] at hpid2
        cases hpid2
      · have hqid : r.parentId = some q.inf.id := by rw [hh]
        rw [hpid2] at hqid
        have hqp : q = p := id_inj hvt.2.2.2 hq hp (by injection hqid.symm)
        subst hqp
        exact ⟨c, hc, hh⟩
    · rintro ⟨c, hc, hh⟩
      subst hh
      exact ⟨rowsT_of_child hp hc, by simp⟩
  · exact List.sorted_insertionSort lftLe _

/-- Counterexample for C4: on a store whose parent pointers disagree
with its intervals, get_children follows the parent foreign key and
not the interval comparison — the two characterizations differ. -/
theorem c4_counterexample :
    get_children exStore exRowP.inf = [] ∧
    childrenByInterval exStore exRowP.inf = [exRowC] ∧
    get_children exStore exRowP.inf ≠ childrenByInterval exStore exRowP.inf := by
  refine ⟨by decide, by decide, by decide⟩

/-- Witness for C4 at the concrete scenario tree of the spec. -/
theorem c4_witness :
    ValidTree treeS ∧ treeS ∈ subtreesT treeS ∧
      get_children (storeOf treeS) treeS.inf = childrenByInterval (storeOf treeS) treeS.inf :=
  ⟨validTree_treeS, self_mem_subtreesT treeS,
    (c4_children_parent_fk_matches_intervals treeS treeS validTree_treeS
      (self_mem_subtreesT treeS)).1⟩

/-- C5: deleteSubtree(n) removes n and every interval-descendant of n
from the vendor table and cascades deletion of their permission grants:
when every grant initially references an existing vendor, afterwards no
surviving grant references a deleted vendor. -/
theorem c5_delete_subtree_cascades (vs : List VRow) (gs : List VendorPermission)
    (n : VInfo) (h : ∀ g ∈ gs, ∃ v ∈ vs, v.inf.id = g.vendorId) :
    (∀ r ∈ (deleteSubtree vs gs n).1,
      r.inf.id ≠ n.id ∧ is_descendant_of r.inf n = false)
    ∧ (∀ g ∈ (deleteSubtree vs gs n).2,
        ∃ v ∈ (deleteSubtree vs gs n).1, v.inf.id = g.vendorId) := by
  constructor
  · intro r hr
    have hm := List.mem_filter.mp hr
    have hkeep : doomed n r = false := by
      have := hm.2
      simp only [Bool.not_eq_eq_eq_not, Bool.not_true] at this
      exact this
    unfold doomed at hkeep
    rcases Bool.or_eq_false_iff.mp hkeep with ⟨h1, h2⟩
    exact ⟨by simpa using h1, h2⟩
  · intro g hg
    have hm := List.mem_filter.mp hg
    have hnot : g.vendorId ∉ (vs.filter (doomed n)).map (fun r => r.inf.id) :=
      of_decide_eq_true hm.2
    obtain ⟨v, hv, hvid⟩ := h g hm.1
    by_cases hdoom : doomed n v = true
    · exfalso
      apply hnot
      rw [List.mem_map]
      exact ⟨v, List.mem_filter.mpr ⟨hv, hdoom⟩, hvid⟩
    · refine ⟨v, List.mem_filter.mpr ⟨hv, ?_⟩, hvid⟩
      simp only [Bool.not_eq_eq_eq_not, Bool.not_true]
      exact Bool.not_eq_true _ |>.mp hdoom

/-- Witness for C5: deleting the child vendor removes it and its grant,
leaving no dangling grant. -/
theorem c5_witness :
    (∀ g ∈ [delGrant], ∃ v ∈ [delRoot, delChild], v.inf.id = g.vendorId) ∧
    (∀ g ∈ (deleteSubtree [delRoot, delChild] [delGrant] delChild.inf).2,
      ∃ v ∈ (deleteSubtree [delRoot, delChild] [delGrant] delChild.inf).1,
        v.inf.id = g.vendorId) :=
  ⟨by decide, (c5_delete_subtree_cascades [delRoot, delChild] [delGrant]
    delChild.inf (by decide)).2⟩

/-- C6: a grant is reported expired by is_expired exactly when it is
temporary with a non-null expiry strictly before now; a non-temporary
grant, or a temporary grant with a null expiry, is never expired. -/
theorem c6_expired_iff_temporary_and_past (now : Int) (g : VendorPermission) :
    (is_expired now g = true ↔
      g.is_temporary = true ∧ ∃ e, g.expires_at = some e ∧ e < now)
    ∧ (g.is_temporary = false → is_expired now g = false)
    ∧ (g.expires_at = none → is_expired now g = false) := by
  rcases g with ⟨vid, uid, pid, gb, cd, tmp, exp, act⟩
  unfold is_expired
  cases tmp <;> cases exp <;> simp

/-- Witness for C6 at three concrete grants. -/
theorem c6_witness :
    is_expired 5 ⟨1, 1, 1, 1, false, true, some 3, true⟩ = true ∧
    is_expired 5 ⟨1, 1, 1, 1, false, false, some 3, true⟩ = false ∧
    is_expired 5 ⟨1, 1, 1, 1, false, true, none, true⟩ = false :=
  ⟨(c6_expired_iff_temporary_and_past 5 _).1.mpr ⟨rfl, 3, rfl, by decide⟩,
    (c6_expired_iff_temporary_and_past 5 _).2.1 rfl,
    (c6_expired_iff_temporary_and_past 5 _).2.2 rfl⟩

/-- C9: a driver with a null medical_certificate_expiry is reported
medically expired, hence never eligible to drive, whatever the status,
verification flag or license. -/
theorem c9_null_medical_never_eligible (today : Int) (d : Driver)
    (h : d.medical_certificate_expiry = none) :
    is_medical_certificate_expired today d = true ∧
      is_eligible_to_drive today d = false := by
  constructor
  · unfold is_medical_certificate_expired
    rw [h]
  · unfold is_eligible_to_drive is_medical_certificate_expired
    rw [h]
    simp

/-- Witness for C9 at a concrete otherwise-perfect driver. -/
theorem c9_witness :
    is_medical_certificate_expired 0 ⟨"active", true, 100, none⟩ = true ∧
      is_eligible_to_drive 0 ⟨"active", true, 100, none⟩ = false :=
  c9_null_medical_never_eligible 0 ⟨"active", true, 100, none⟩ rfl

/-- C10: a document with a null expiry_date is never reported expired. -/
theorem c10_null_expiry_never_expired (today : Int) (doc : DocumentRow)
    (h : doc.expiry_date = none) : document_is_expired today doc = false := by
  unfold document_is_expired
  rw [h]

/-- Witness for C10 at a concrete document. -/
theorem c10_witness : document_is_expired 12 ⟨.uploaded, 0, none⟩ = false :=
  c10_null_expiry_never_expired 12 ⟨.uploaded, 0, none⟩ rfl

/-- C2: at most one decision exists per (document, level) — reachable
documents have pairwise distinct recorded levels — and an attempt to
record a second decision at an already-decided level fails with
VerificationConflict, creating no record. -/
theorem c2_decision_unique_per_level (N : Nat) (st : DocState) (level : Nat)
    (h : ∃ d ∈ st.decisions, d.verification_level = level) :
    (∀ (action : VAction) (actor : Nat) (deadline : Option Int) (escTo : Option Nat),
      Wf.apply N true level action actor deadline escTo st = .error .verificationConflict)
    ∧ (∀ stp, Wf.Reachable N stp → (Wf.levelsOf stp).Nodup) :=
  ⟨fun action actor deadline escTo => Wf.apply_error_of_conflict h,
    fun stp hr => Wf.nodup_levels (Wf.inv_reachable hr).1⟩

/-- Witness for C2: retrying level 1 on a document already decided at
level 1 conflicts. -/
theorem c2_witness :
    Wf.apply 3 true 1 VAction.approved 8 none none
      ⟨DocStatus.under_review, 1, [⟨1, VAction.approved, 7, none, none⟩]⟩ =
      .error .verificationConflict :=
  (c2_decision_unique_per_level 3
    ⟨DocStatus.under_review, 1, [⟨1, VAction.approved, 7, none, none⟩]⟩ 1
    ⟨⟨1, VAction.approved, 7, none, none⟩, List.mem_singleton.mpr rfl, rfl⟩).1
    VAction.approved 8 none none

/-- Counterexample for C3: on a reachable document with
current_verification_level 2, applying at level 1 (out of order, but at
an already-decided level) fails with VerificationConflict, not
OutOfOrder as the claim states. -/
theorem c3_counterexample :
    Wf.apply 3 true 1 VAction.approved 7 none none Wf.initDoc =
      .ok ⟨DocStatus.under_review, 1, [⟨1, VAction.approved, 7, none, none⟩]⟩
    ∧ Wf.apply 3 true 2 VAction.approved 7 none none
        ⟨DocStatus.under_review, 1, [⟨1, VAction.approved, 7, none, none⟩]⟩ =
      .ok ⟨DocStatus.under_review, 2,
        [⟨1, VAction.approved, 7, none, none⟩, ⟨2, VAction.approved, 7, none, none⟩]⟩
    ∧ (1 : Nat) ≠ 2 + 1
    ∧ Wf.apply 3 true 1 VAction.approved 7 none none
        ⟨DocStatus.under_review, 2,
          [⟨1, VAction.approved, 7, none, none⟩, ⟨2, VAction.approved, 7, none, none⟩]⟩ =
      .error .verificationConflict
    ∧ WfError.verificationConflict ≠ WfError.outOfOrder :=
  ⟨rfl, rfl, by decide, rfl, by decide⟩

/-- C3 (amended): current_verification_level starts at 0; apply at
level k succeeds only when k = currentLevel + 1; when k is out of order
and level k carries no prior decision the failure is OutOfOrder (a
prior decision at k yields VerificationConflict instead); and a
reachable verified document carries exactly N approved decisions at
levels 1 .. N in strictly increasing order. -/
theorem c3_strict_order_and_exact_approvals (N : Nat) :
    Wf.initDoc.current_verification_level = 0
    ∧ (∀ (auth : Bool) (level : Nat) (action : VAction) (actor : Nat)
        (deadline : Option Int) (escTo : Option Nat) (st stp : DocState),
        Wf.apply N auth level action actor deadline escTo st = .ok stp →
          level = st.current_verification_level + 1)
    ∧ (∀ (level : Nat) (action : VAction) (actor : Nat)
        (deadline : Option Int) (escTo : Option Nat) (st : DocState),
        (∀ d ∈ st.decisions, d.verification_level ≠ level) →
        level ≠ st.current_verification_level + 1 →
          Wf.apply N true level action actor deadline escTo st = .error .outOfOrder)
    ∧ (∀ st, Wf.Reachable N st → st.status = DocStatus.verified →
        st.decisions.map (fun d => (d.verification_level, d.action)) =
          (List.range N).map (fun i => (i + 1, VAction.approved))) := by
  refine ⟨rfl, ?_, ?_, ?_⟩
  · intro auth level action actor deadline escTo st stp h
    exact (Wf.apply_ok_inv h).2.2.1
  · intro level action actor deadline escTo st h1 h2
    exact Wf.apply_error_of_order h1 h2
  · intro st hr hv
    exact Wf.verified_decisions hr hv

/-- Witness for C3: the fresh document, a successful in-order apply,
an out-of-order failure, and a verified single-level document with
exactly one approved decision at level 1. -/
theorem c3_witness :
    Wf.apply 1 true 1 VAction.approved 7 none none Wf.initDoc =
      .ok ⟨DocStatus.verified, 1, [⟨1, VAction.approved, 7, none, none⟩]⟩
    ∧ (1 : Nat) = Wf.initDoc.current_verification_level + 1
    ∧ Wf.apply 1 true 5 VAction.approved 7 none none Wf.initDoc = .error .outOfOrder
    ∧ (DocState.mk DocStatus.verified 1 [⟨1, VAction.approved, 7, none, none⟩]).decisions.map
        (fun d => (d.verification_level, d.action)) =
      (List.range 1).map (fun i => (i + 1, VAction.approved)) := by
  have hstep : Wf.apply 1 true 1 VAction.approved 7 none none Wf.initDoc =
      .ok ⟨DocStatus.verified, 1, [⟨1, VAction.approved, 7, none, none⟩]⟩ := rfl
  have hreach : Wf.Reachable 1 ⟨DocStatus.verified, 1, [⟨1, VAction.approved, 7, none, none⟩]⟩ :=
    Relation.ReflTransGen.single (Or.inl ⟨true, 1, VAction.approved, 7, none, none, hstep⟩)
  refine ⟨hstep, ?_, ?_, ?_⟩
  · exact (c3_strict_order_and_exact_approvals 1).2.1 true 1 VAction.approved 7 none none
      Wf.initDoc _ hstep
  · exact (c3_strict_order_and_exact_approvals 1).2.2.1 5 VAction.approved 7 none none
      Wf.initDoc (by simp [Wf.initDoc]) (by simp [Wf.initDoc])
  · exact (c3_strict_order_and_exact_approvals 1).2.2.2 _ hreach rfl

/-- C7: a successful rejected decision makes the document status
Rejected; on a reachable rejected document every apply call fails with
an error — so no call changes its state — and every workflow step
leaves the state fixed. -/
theorem c7_rejected_is_terminal (N : Nat) (st : DocState) (hr : Wf.Reachable N st)
    (hrej : st.status = DocStatus.rejected) :
    (∀ (auth : Bool) (level : Nat) (action : VAction) (actor : Nat)
        (deadline : Option Int) (escTo : Option Nat), ∃ e,
        Wf.apply N auth level action actor deadline escTo st = .error e)
    ∧ (∀ stp, Wf.Step N st stp → stp = st)
    ∧ (∀ (st0 stp : DocState) (auth : Bool) (level actor : Nat)
        (deadline : Option Int) (escTo : Option Nat),
        Wf.apply N auth level VAction.rejected actor deadline escTo st0 = .ok stp →
          stp.status = DocStatus.rejected) := by
  have hInv := Wf.inv_reachable hr
  refine ⟨fun auth level action actor deadline escTo =>
      Wf.apply_fails_on_rejected hInv hrej auth level action actor deadline escTo,
    fun stp hstep => Wf.step_fixed_on_rejected hInv hrej hstep, ?_⟩
  intro st0 stp auth level actor deadline escTo h
  obtain ⟨-, -, -, hcases⟩ := Wf.apply_ok_inv h
  rcases hcases with ⟨hact, -, -⟩ | ⟨hact, -, -⟩ | ⟨-, hstp⟩ |
      ⟨dl, hact, -, -⟩ | ⟨e0, hact, -, -⟩
  · cases hact
  · cases hact
  · subst hstp; rfl
  · cases hact
  · cases hact

/-- Witness for C7: a concrete reachable rejected document on which a
further apply fails. -/
theorem c7_witness :
    (DocState.mk DocStatus.rejected 0 [⟨1, VAction.rejected, 7, none, none⟩]).status =
        DocStatus.rejected
    ∧ ∃ e, Wf.apply 2 true 1 VAction.approved 9 none none
        ⟨DocStatus.rejected, 0, [⟨1, VAction.rejected, 7, none, none⟩]⟩ = .error e := by
  have hstep : Wf.apply 2 true 1 VAction.rejected 7 none none Wf.initDoc =
      .ok ⟨DocStatus.rejected, 0, [⟨1, VAction.rejected, 7, none, none⟩]⟩ := rfl
  have hreach : Wf.Reachable 2 ⟨DocStatus.rejected, 0, [⟨1, VAction.rejected, 7, none, none⟩]⟩ :=
    Relation.ReflTransGen.single (Or.inl ⟨true, 1, VAction.rejected, 7, none, none, hstep⟩)
  exact ⟨rfl, (c7_rejected_is_terminal 2 _ hreach rfl).1 true 1 VAction.approved 9 none none⟩

end VMS
